import Mathlib

/-
Verification development for the Poisson miniapp translation unit
`src/poisson_problem.cpp`.  The file is glue code around external
finite-element and linear-algebra libraries; the embedding below models the
repository's own logic (the Tpetra insertion callback, the CRS graph
construction, the boundary predicate, the coefficient expressions, the order
of the right-hand-side operations, and the shape of the returned values)
over exact rational scalars, with the external library entry points modelled
by the operations they are documented to perform (ADD-mode accumulation,
ghost export, boundary-row zeroing).
-/

namespace PoissonMiniapp

/-- Scalar matrices are modelled as total functions from (global row, global
column) to an exact rational value; absent entries are 0. -/
abbrev Mat := Nat → Nat → ℚ

/-- The everywhere-zero matrix: the state of both backends' matrices before
assembly (`MatZeroEntries` for PETSc, a freshly created `Tpetra::CrsMatrix`). -/
def zeroMat : Mat := fun _ _ => 0

/-- Add `v` into entry `(r, c)` of `A`, the elementary ADD-mode update both
backends are built from. -/
def matAdd (A : Mat) (r c : Nat) (v : ℚ) : Mat :=
  fun i j => if i = r then (if j = c then A i j + v else A i j) else A i j

/-- Local-to-global index lookup through the dofmap's `global_indices` array
(`poisson_problem.cpp` lines 92-97, 141, 146). -/
def globalOf (l2g : List Nat) (i : Nat) : Nat := l2g.getD i 0

/-- Model of `Tpetra::CrsMatrix::sumIntoGlobalValues` on row `grow`: each
requested (global column, value) pair is added only when the column is
present in the row's graph, and the number of entries actually summed is
returned (`nvalid` in the source). -/
def sumIntoGlobalValues (graphRow : List Nat) (grow : Nat) :
    Mat → List (Nat × ℚ) → Mat × Nat
  | A, [] => (A, 0)
  | A, (c, v) :: rest =>
    if c ∈ graphRow then
      let p := sumIntoGlobalValues graphRow grow (matAdd A grow c v) rest
      (p.1, p.2 + 1)
    else
      sumIntoGlobalValues graphRow grow A rest

/-- Unconditional ADD of a list of (global column, value) pairs into row
`grow`: the effect of one row of `MatSetValuesLocal` with `ADD_VALUES`, which
the PETSc backend's `add_fn` wraps. -/
def addRowVals (grow : Nat) : Mat → List (Nat × ℚ) → Mat
  | A, [] => A
  | A, (c, v) :: rest => addRowVals grow (matAdd A grow c v) rest

/-- One block of values handed to an insertion callback by
`dolfinx::fem::assemble_matrix` / `add_diagonal`: local row indices, local
column indices, and a dense row-major value block (`vals.get i` is row `i`
of the block, of length `cols.length`). -/
structure Block where
  rows : List Nat
  cols : List Nat
  vals : List (List ℚ)

/-- The global column indices of a block, `global_cols` in the source
(lines 139-141). -/
def blockGcols (l2g : List Nat) (b : Block) : List Nat :=
  b.cols.map (globalOf l2g)

/-- The per-row loop data of a block: each local row mapped to its global
index (`global_indices[rows[i]]`), paired with its slice of the value block
(`data + i * nc`). -/
def blockRowPairs (l2g : List Nat) (b : Block) : List (Nat × List ℚ) :=
  (b.rows.map (globalOf l2g)).zip b.vals

/-- The row loop of the `tpetra_insert` callback (lines 143-151): for each
row, `sumIntoGlobalValues`; if the reported `nvalid` differs from the number
of requested columns, raise a runtime failure naming the offending global
row; otherwise continue with the updated matrix. -/
def tpetraInsertRows (graph : Nat → List Nat) (gcols : List Nat) :
    Mat → List (Nat × List ℚ) → Except String Mat
  | A, [] => .ok A
  | A, (gr, dv) :: rest =>
    let p := sumIntoGlobalValues (graph gr) gr A (gcols.zip dv)
    if p.2 ≠ gcols.length then
      .error ("Could not insert on row " ++ toString gr)
    else
      tpetraInsertRows graph gcols p.1 rest

/-- The `tpetra_insert` callback of `poisson_problem.cpp` lines 133-153,
acting on the matrix state `A_Tpetra`. -/
def tpetra_insert (graph : Nat → List Nat) (l2g : List Nat) (A : Mat)
    (b : Block) : Except String Mat :=
  tpetraInsertRows graph (blockGcols l2g b) A (blockRowPairs l2g b)

/-- The value returned by the callback to the assembler: 0 on success
(line 152), a raised failure otherwise. -/
def tpetraCallbackResult (graph : Nat → List Nat) (l2g : List Nat) (A : Mat)
    (b : Block) : Except String Int :=
  match tpetra_insert graph l2g A b with
  | .error e => .error e
  | .ok _ => .ok 0

/-- The PETSc insertion path for one block:
`dolfinx::la::PETScMatrix::add_fn` wraps `MatSetValuesLocal` with
`ADD_VALUES`, and the matrix's local-to-global map is the same
`global_indices` array of the dofmap, so every value of the block is added
at the corresponding global position. -/
def petscAddRows (gcols : List Nat) : Mat → List (Nat × List ℚ) → Mat
  | A, [] => A
  | A, (gr, dv) :: rest => petscAddRows gcols (addRowVals gr A (gcols.zip dv)) rest

/-- The PETSc-side effect of one callback invocation on the matrix
(`PETScMatrix::add_fn`, used at lines 204-207). -/
def add_fn (l2g : List Nat) (A : Mat) (b : Block) : Mat :=
  petscAddRows (blockGcols l2g b) A (blockRowPairs l2g b)

/-- Folding the Tpetra callback over the stream of blocks produced by
`dolfinx::fem::assemble_matrix` / `add_diagonal` (lines 155-156). -/
def tpetraAssemble (graph : Nat → List Nat) (l2g : List Nat) :
    Mat → List Block → Except String Mat
  | A, [] => .ok A
  | A, b :: rest =>
    match tpetra_insert graph l2g A b with
    | .error e => .error e
    | .ok A2 => tpetraAssemble graph l2g A2 rest

/-- Folding the PETSc callback over the same stream of blocks
(lines 204-207). -/
def petscAssemble (l2g : List Nat) : Mat → List Block → Mat
  | A, [] => A
  | A, b :: rest => petscAssemble l2g (add_fn l2g A b) rest

/-- The blocks produced by `dolfinx::fem::add_diagonal(callback, V, {bc})`:
one 1-times-1 block with value 1.0 on the diagonal of each boundary dof. -/
def diagonalBlocks (bdofs : List Nat) : List Block :=
  bdofs.map (fun d => ⟨[d], [d], [[1]]⟩)

/-- The full stream of insertion events building the system matrix: the
blocks of `assemble_matrix(callback, a, {bc})` followed by the diagonal
blocks of `add_diagonal(callback, V, {bc})`. -/
def systemEvents (events : List Block) (bdofs : List Nat) : List Block :=
  events ++ diagonalBlocks bdofs

/-- The system matrix built through the Tpetra backend (lines 155-157). -/
def tpetraSystemMatrix (graph : Nat → List Nat) (l2g : List Nat)
    (events : List Block) (bdofs : List Nat) : Except String Mat :=
  tpetraAssemble graph l2g zeroMat (systemEvents events bdofs)

/-- The system matrix built through the PETSc backend (lines 202-209). -/
def petscSystemMatrix (l2g : List Nat) (events : List Block)
    (bdofs : List Nat) : Mat :=
  petscAssemble l2g zeroMat (systemEvents events bdofs)

/-- Squared Frobenius norm of the leading n-times-n window of a matrix. -/
def frobeniusNormSq (n : Nat) (A : Mat) : ℚ :=
  ((List.range n).map
    (fun i => ((List.range n).map (fun j => A i j * A i j)).sum)).sum

/-- The count reported by `sumIntoGlobalValues` never exceeds the number of
requested entries. -/
theorem sumInto_snd_le (graphRow : List Nat) (grow : Nat) (A : Mat)
    (pairs : List (Nat × ℚ)) :
    (sumIntoGlobalValues graphRow grow A pairs).2 ≤ pairs.length := by
  induction pairs generalizing A with
  | nil => simp [sumIntoGlobalValues]
  | cons p rest ih =>
    obtain ⟨c, v⟩ := p
    by_cases hc : c ∈ graphRow
    · simpa [sumIntoGlobalValues, hc] using ih (matAdd A grow c v)
    · simp only [sumIntoGlobalValues, hc, if_neg, List.length_cons]
      exact Nat.le_succ_of_le (ih A)

/-- The count reported by `sumIntoGlobalValues` does not depend on the
matrix state. -/
theorem sumInto_snd_indep (graphRow : List Nat) (grow : Nat) (A B : Mat)
    (pairs : List (Nat × ℚ)) :
    (sumIntoGlobalValues graphRow grow A pairs).2
      = (sumIntoGlobalValues graphRow grow B pairs).2 := by
  induction pairs generalizing A B with
  | nil => rfl
  | cons p rest ih =>
    obtain ⟨c, v⟩ := p
    by_cases hc : c ∈ graphRow
    · simp only [sumIntoGlobalValues, hc, if_pos]
      exact congrArg (· + 1) (ih _ _)
    · simpa [sumIntoGlobalValues, hc] using ih A B

/-- The reported count equals the number of requested entries exactly when
every requested column is present in the row's graph. -/
theorem sumInto_snd_eq_iff (graphRow : List Nat) (grow : Nat) (A : Mat)
    (pairs : List (Nat × ℚ)) :
    (sumIntoGlobalValues graphRow grow A pairs).2 = pairs.length
      ↔ ∀ p ∈ pairs, p.1 ∈ graphRow := by
  induction pairs generalizing A with
  | nil => simp [sumIntoGlobalValues]
  | cons p rest ih =>
    obtain ⟨c, v⟩ := p
    by_cases hc : c ∈ graphRow
    · simp only [sumIntoGlobalValues, hc, if_pos, List.length_cons,
        Nat.add_right_cancel_iff, List.mem_cons]
      constructor
      · intro h q hq
        rcases hq with hq | hq
        · subst hq; exact hc
        · exact ((ih (matAdd A grow c v)).1 h) q hq
      · intro h
        exact (ih (matAdd A grow c v)).2 (fun q hq => h q (Or.inr hq))
    · simp only [sumIntoGlobalValues, hc, if_neg, List.length_cons]
      constructor
      · intro h
        exact absurd h (Nat.ne_of_lt
          (Nat.lt_succ_of_le (sumInto_snd_le graphRow grow A rest)))
      · intro h
        exact absurd (h (c, v) (List.mem_cons_self _ _)) hc

/-- When every requested column is present, `sumIntoGlobalValues` performs
exactly the unconditional ADD of all entries. -/
theorem sumInto_fst_of_all_mem (graphRow : List Nat) (grow : Nat) (A : Mat)
    (pairs : List (Nat × ℚ)) (h : ∀ p ∈ pairs, p.1 ∈ graphRow) :
    (sumIntoGlobalValues graphRow grow A pairs).1 = addRowVals grow A pairs := by
  induction pairs generalizing A with
  | nil => rfl
  | cons p rest ih =>
    obtain ⟨c, v⟩ := p
    have hc : c ∈ graphRow := h (c, v) (List.mem_cons_self _ _)
    simp only [sumIntoGlobalValues, hc, if_pos, addRowVals]
    exact ih (matAdd A grow c v) (fun q hq => h q (List.mem_cons_of_mem _ hq))

/-- If the Tpetra row loop returns a matrix, it is exactly what the
unconditional PETSc-side row additions produce. -/
theorem tpetraInsertRows_ok (graph : Nat → List Nat) (gcols : List Nat)
    (A A2 : Mat) (rows : List (Nat × List ℚ))
    (h : tpetraInsertRows graph gcols A rows = Except.ok A2) :
    A2 = petscAddRows gcols A rows := by
  induction rows generalizing A with
  | nil =>
    simp only [tpetraInsertRows] at h
    cases h
    rfl
  | cons p rest ih =>
    obtain ⟨gr, dv⟩ := p
    simp only [tpetraInsertRows] at h
    by_cases hn : (sumIntoGlobalValues (graph gr) gr A (gcols.zip dv)).2
        = gcols.length
    · rw [if_neg (by simpa using hn)] at h
      have hle := sumInto_snd_le (graph gr) gr A (gcols.zip dv)
      have hlen : (gcols.zip dv).length = gcols.length := by
        have hzl : (gcols.zip dv).length ≤ gcols.length := by
          simp [List.length_zip]
        exact Nat.le_antisymm hzl (hn ▸ hle)
      have hall : ∀ p ∈ gcols.zip dv, p.1 ∈ graph gr :=
        (sumInto_snd_eq_iff (graph gr) gr A (gcols.zip dv)).1 (hn.trans hlen.symm)
      have hfst := sumInto_fst_of_all_mem (graph gr) gr A (gcols.zip dv) hall
      rw [petscAddRows, ← hfst]
      exact ih _ h
    · rw [if_pos (by simpa using hn)] at h
      cases h

/-- If one callback invocation succeeds on the Tpetra side, its result is
the PETSc-side effect of the same block. -/
theorem tpetra_insert_ok (graph : Nat → List Nat) (l2g : List Nat)
    (A A2 : Mat) (b : Block) (h : tpetra_insert graph l2g A b = Except.ok A2) :
    A2 = add_fn l2g A b :=
  tpetraInsertRows_ok graph (blockGcols l2g b) A A2 (blockRowPairs l2g b) h

/-- If the Tpetra fold over a block stream succeeds, its result is the PETSc
fold over the same stream. -/
theorem tpetraAssemble_ok (graph : Nat → List Nat) (l2g : List Nat)
    (events : List Block) (A M : Mat)
    (h : tpetraAssemble graph l2g A events = Except.ok M) :
    M = petscAssemble l2g A events := by
  induction events generalizing A with
  | nil =>
    simp only [tpetraAssemble] at h
    cases h
    rfl
  | cons b rest ih =>
    simp only [tpetraAssemble] at h
    cases hb : tpetra_insert graph l2g A b with
    | error e => rw [hb] at h; cases h
    | ok A2 =>
      rw [hb] at h
      rw [petscAssemble, ← tpetra_insert_ok graph l2g A A2 b hb]
      exact ih _ h

/-- The number of requested entries of a row that the graph accepts: the
value `sumIntoGlobalValues` reports, independent of the matrix state. -/
def rowNvalid (graphRow : List Nat) (pairs : List (Nat × ℚ)) : Nat :=
  (pairs.filter (fun p => decide (p.1 ∈ graphRow))).length

/-- A row of a block fails insertion when the accepted count differs from
the requested column count (`nvalid != nc` in the source). -/
def rowFails (graph : Nat → List Nat) (gcols : List Nat)
    (p : Nat × List ℚ) : Prop :=
  rowNvalid (graph p.1) (gcols.zip p.2) ≠ gcols.length

instance (graph : Nat → List Nat) (gcols : List Nat) (p : Nat × List ℚ) :
    Decidable (rowFails graph gcols p) := by
  unfold rowFails
  infer_instance

/-- The reported count of `sumIntoGlobalValues` is `rowNvalid`. -/
theorem sumInto_snd_eq_rowNvalid (graphRow : List Nat) (grow : Nat) (A : Mat)
    (pairs : List (Nat × ℚ)) :
    (sumIntoGlobalValues graphRow grow A pairs).2 = rowNvalid graphRow pairs := by
  induction pairs generalizing A with
  | nil => rfl
  | cons p rest ih =>
    obtain ⟨c, v⟩ := p
    by_cases hc : c ∈ graphRow
    · simp only [sumIntoGlobalValues, hc, if_pos, rowNvalid, List.filter_cons,
        decide_eq_true hc, List.length_cons]
      exact congrArg (· + 1) (ih _)
    · simp only [sumIntoGlobalValues, hc, if_neg, rowNvalid, List.filter_cons]
      rw [if_neg (by simp [hc])]
      exact ih A

/-- A raised failure of the row loop comes from a failing row and carries
that row's global index in its message. -/
theorem tpetraInsertRows_error (graph : Nat → List Nat) (gcols : List Nat)
    (A : Mat) (rows : List (Nat × List ℚ)) (msg : String)
    (h : tpetraInsertRows graph gcols A rows = Except.error msg) :
    ∃ p ∈ rows, rowFails graph gcols p
      ∧ msg = "Could not insert on row " ++ toString p.1 := by
  induction rows generalizing A with
  | nil => simp only [tpetraInsertRows] at h; cases h
  | cons p rest ih =>
    obtain ⟨gr, dv⟩ := p
    simp only [tpetraInsertRows] at h
    by_cases hn : (sumIntoGlobalValues (graph gr) gr A (gcols.zip dv)).2
        = gcols.length
    · rw [if_neg (by simpa using hn)] at h
      obtain ⟨q, hq, hfail, hmsg⟩ := ih _ h
      exact ⟨q, List.mem_cons_of_mem _ hq, hfail, hmsg⟩
    · rw [if_pos (by simpa using hn)] at h
      cases h
      refine ⟨(gr, dv), List.mem_cons_self _ _, ?_, rfl⟩
      unfold rowFails
      rw [← sumInto_snd_eq_rowNvalid (graph gr) gr A (gcols.zip dv)]
      exact hn

/-- If no row of the loop fails, the loop returns a matrix. -/
theorem tpetraInsertRows_ok_of_no_fail (graph : Nat → List Nat)
    (gcols : List Nat) (A : Mat) (rows : List (Nat × List ℚ))
    (h : ∀ p ∈ rows, ¬ rowFails graph gcols p) :
    ∃ A2, tpetraInsertRows graph gcols A rows = Except.ok A2 := by
  induction rows generalizing A with
  | nil => exact ⟨A, rfl⟩
  | cons p rest ih =>
    obtain ⟨gr, dv⟩ := p
    have hok : ¬ rowFails graph gcols (gr, dv) :=
      h (gr, dv) (List.mem_cons_self _ _)
    have hn : (sumIntoGlobalValues (graph gr) gr A (gcols.zip dv)).2
        = gcols.length := by
      rw [sumInto_snd_eq_rowNvalid]
      exact not_not.mp hok
    simp only [tpetraInsertRows]
    rw [if_neg (by simpa using hn)]
    exact ih _ (fun q hq => h q (List.mem_cons_of_mem _ hq))

/-- If some row of the loop fails, the loop raises a failure. -/
theorem tpetraInsertRows_error_of_fail (graph : Nat → List Nat)
    (gcols : List Nat) (A : Mat) (rows : List (Nat × List ℚ))
    (h : ∃ p ∈ rows, rowFails graph gcols p) :
    ∃ msg, tpetraInsertRows graph gcols A rows = Except.error msg := by
  induction rows generalizing A with
  | nil => simp at h
  | cons p rest ih =>
    obtain ⟨gr, dv⟩ := p
    by_cases hn : (sumIntoGlobalValues (graph gr) gr A (gcols.zip dv)).2
        = gcols.length
    · have hhd : ¬ rowFails graph gcols (gr, dv) := by
        unfold rowFails
        rw [← sumInto_snd_eq_rowNvalid (graph gr) gr A (gcols.zip dv)]
        exact not_not.mpr hn
      obtain ⟨q, hq, hfail⟩ := h
      rcases List.mem_cons.mp hq with hq1 | hq1
      · subst hq1; exact absurd hfail hhd
      · simp only [tpetraInsertRows]
        rw [if_neg (by simpa using hn)]
        exact ih _ ⟨q, hq1, hfail⟩
    · refine ⟨"Could not insert on row " ++ toString gr, ?_⟩
      simp only [tpetraInsertRows]
      rw [if_pos (by simpa using hn)]

/-- Any failure raised by the Tpetra assembly fold carries the message shape
of the single `throw` in the source. -/
theorem tpetraAssemble_error_shape (graph : Nat → List Nat) (l2g : List Nat)
    (events : List Block) (A : Mat) (msg : String)
    (h : tpetraAssemble graph l2g A events = Except.error msg) :
    ∃ gr : Nat, msg = "Could not insert on row " ++ toString gr := by
  induction events generalizing A with
  | nil => simp only [tpetraAssemble] at h; cases h
  | cons b rest ih =>
    simp only [tpetraAssemble] at h
    cases hb : tpetra_insert graph l2g A b with
    | error e =>
      rw [hb] at h
      cases h
      obtain ⟨p, _, _, hmsg⟩ :=
        tpetraInsertRows_error graph (blockGcols l2g b) A
          (blockRowPairs l2g b) msg hb
      exact ⟨p.1, hmsg⟩
    | ok A2 =>
      rw [hb] at h
      exact ih _ h

/-- Unfolding of one elementary ADD-mode update. -/
theorem matAdd_apply (A : Mat) (r c : Nat) (v : ℚ) (i j : Nat) :
    matAdd A r c v i j
      = if i = r then (if j = c then A i j + v else A i j) else A i j := rfl

/-- Row additions leave every other row unchanged. -/
theorem addRowVals_apply_ne (gr : Nat) (A : Mat) (pairs : List (Nat × ℚ))
    (i j : Nat) (hi : i ≠ gr) : addRowVals gr A pairs i j = A i j := by
  induction pairs generalizing A with
  | nil => rfl
  | cons p rest ih =>
    obtain ⟨c, v⟩ := p
    rw [addRowVals, ih]
    simp [matAdd, hi]

/-- Adding only zero values leaves the matrix unchanged. -/
theorem addRowVals_apply_zero (gr : Nat) (A : Mat) (pairs : List (Nat × ℚ))
    (i j : Nat) (hz : ∀ p ∈ pairs, p.2 = 0) :
    addRowVals gr A pairs i j = A i j := by
  induction pairs generalizing A with
  | nil => rfl
  | cons p rest ih =>
    obtain ⟨c, v⟩ := p
    have hv : v = 0 := hz (c, v) (List.mem_cons_self _ _)
    rw [addRowVals, ih _ (fun q hq => hz q (List.mem_cons_of_mem _ hq))]
    subst hv
    simp [matAdd]

/-- A block contributes nothing to global row `g`: every value it carries
for that row is zero.  This is the guarantee `dolfinx::fem::assemble_matrix`
gives for the rows of the dofs constrained by `bc`. -/
def rowZeroed (l2g : List Nat) (g : Nat) (b : Block) : Prop :=
  ∀ p ∈ blockRowPairs l2g b, p.1 = g → ∀ v ∈ p.2, v = 0

instance (l2g : List Nat) (g : Nat) (b : Block) :
    Decidable (rowZeroed l2g g b) := by
  unfold rowZeroed
  infer_instance

/-- The per-block row loop leaves row `g` unchanged when the block
contributes nothing to it. -/
theorem petscAddRows_row_preserved (gcols : List Nat) (A : Mat)
    (rows : List (Nat × List ℚ)) (g j : Nat)
    (h : ∀ p ∈ rows, p.1 = g → ∀ v ∈ p.2, v = 0) :
    petscAddRows gcols A rows g j = A g j := by
  induction rows generalizing A with
  | nil => rfl
  | cons p rest ih =>
    obtain ⟨gr, dv⟩ := p
    rw [petscAddRows, ih _ (fun q hq => h q (List.mem_cons_of_mem _ hq))]
    by_cases hg : gr = g
    · refine addRowVals_apply_zero gr A (gcols.zip dv) g j (fun q hq => ?_)
      obtain ⟨c, v⟩ := q
      exact h (gr, dv) (List.mem_cons_self _ _) hg v (List.of_mem_zip hq).2
    · exact addRowVals_apply_ne gr A (gcols.zip dv) g j (fun hne => hg hne.symm)

/-- One callback invocation leaves row `g` unchanged on the PETSc side when
the block contributes nothing to it. -/
theorem add_fn_row_preserved (l2g : List Nat) (A : Mat) (b : Block)
    (g j : Nat) (h : rowZeroed l2g g b) : add_fn l2g A b g j = A g j :=
  petscAddRows_row_preserved (blockGcols l2g b) A (blockRowPairs l2g b) g j h

/-- The PETSc fold leaves row `g` unchanged when no block of the stream
contributes to it. -/
theorem petscAssemble_row_preserved (l2g : List Nat) (A : Mat)
    (events : List Block) (g j : Nat)
    (h : ∀ b ∈ events, rowZeroed l2g g b) :
    petscAssemble l2g A events g j = A g j := by
  induction events generalizing A with
  | nil => rfl
  | cons b rest ih =>
    rw [petscAssemble, ih _ (fun q hq => h q (List.mem_cons_of_mem _ hq))]
    exact add_fn_row_preserved l2g A b g j (h b (List.mem_cons_self _ _))

/-- The PETSc fold over a concatenated stream is the composition of the
folds. -/
theorem petscAssemble_append (l2g : List Nat) (A : Mat)
    (l1 l2 : List Block) :
    petscAssemble l2g A (l1 ++ l2)
      = petscAssemble l2g (petscAssemble l2g A l1) l2 := by
  induction l1 generalizing A with
  | nil => rfl
  | cons b rest ih =>
    rw [List.cons_append, petscAssemble, petscAssemble, ih]

/-- The PETSc-side effect of one diagonal block: add 1 at the diagonal
entry of the mapped boundary dof. -/
theorem add_fn_diagonal (l2g : List Nat) (A : Mat) (d : Nat) :
    add_fn l2g A ⟨[d], [d], [[1]]⟩
      = matAdd A (globalOf l2g d) (globalOf l2g d) 1 := rfl

/-- The diagonal blocks leave row `g` unchanged when `g` is not the image
of any boundary dof. -/
theorem diagonalBlocks_not_mem (l2g : List Nat) (A : Mat)
    (bdofs : List Nat) (g j : Nat)
    (h : g ∉ bdofs.map (globalOf l2g)) :
    petscAssemble l2g A (diagonalBlocks bdofs) g j = A g j := by
  induction bdofs generalizing A with
  | nil => rfl
  | cons d rest ih =>
    have hd : g ≠ globalOf l2g d := by
      intro hgd
      exact h (by simp [hgd])
    have hrest : g ∉ rest.map (globalOf l2g) := by
      intro hmem
      exact h (by simp [List.mem_map] at hmem ⊢; tauto)
    rw [diagonalBlocks, List.map_cons, petscAssemble, ← diagonalBlocks]
    rw [ih _ hrest, add_fn_diagonal]
    simp [matAdd, hd]

/-- When the images of the boundary dofs are distinct and `g` is one of
them, the diagonal blocks add exactly 1 at `(g, g)` and nothing else in
row `g`. -/
theorem diagonalBlocks_mem_nodup (l2g : List Nat) (A : Mat)
    (bdofs : List Nat) (g j : Nat)
    (hnd : (bdofs.map (globalOf l2g)).Nodup)
    (hg : g ∈ bdofs.map (globalOf l2g)) :
    petscAssemble l2g A (diagonalBlocks bdofs) g j
      = (if j = g then A g j + 1 else A g j) := by
  induction bdofs generalizing A with
  | nil => simp at hg
  | cons d rest ih =>
    rw [List.map_cons] at hnd hg
    rw [diagonalBlocks, List.map_cons, petscAssemble, ← diagonalBlocks,
      add_fn_diagonal]
    rcases List.mem_cons.mp hg with hgd | hgr
    · have hrest : g ∉ rest.map (globalOf l2g) := by
        rw [hgd]
        exact (List.nodup_cons.mp hnd).1
      rw [diagonalBlocks_not_mem l2g _ rest g j hrest]
      simp [matAdd, hgd]
    · have hgd : g ≠ globalOf l2g d := by
        intro hcontra
        exact (List.nodup_cons.mp hnd).1 (hcontra ▸ hgr)
      rw [ih _ (List.nodup_cons.mp hnd).2 hgr]
      simp [matAdd, hgd]

/-- The local right-hand-side array of one MPI rank after
`assemble_vector` and `apply_lifting` (lines 168-170 for the Eigen array,
lines 222-223 for the PETSc vector; both paths run the same library
assembly kernels on the same forms `L`, `a` and the same `bc`): each local
position carries its global dof index and its accumulated local value.  The
positions cover the rank's owned dofs followed by its ghost dofs. -/
structure RankVec where
  entries : List (Nat × ℚ)

/-- The dof array of the boundary-value function `u0` is explicitly zeroed
(line 48: `u0->x()->array().setZero()`), so the Dirichlet value is 0. -/
def u0val : ℚ := 0

/-- Model of `dolfinx::fem::set_bc` on a local array (line 171): every local
position whose global dof is constrained is overwritten with the boundary
value. -/
def set_bc (isB : Nat → Bool) (bcv : ℚ) (rv : RankVec) : RankVec :=
  ⟨rv.entries.map (fun p => (p.1, if isB p.1 then bcv else p.2))⟩

/-- Sum of the values a list of (global dof, value) pairs holds for global
dof `g`. -/
def pairSum (g : Nat) : List (Nat × ℚ) → ℚ
  | [] => 0
  | p :: rest => (if p.1 = g then p.2 else 0) + pairSum g rest

/-- ADD-mode ghost accumulation: the owned value of global dof `g` after
the exchange is the sum, over every rank, of the values its local array
holds for `g`.  This is both `Tpetra::Export` with `CombineMode::ADD`
(line 175) and `VecGhostUpdate` with `ADD_VALUES, SCATTER_REVERSE`
(lines 224-225). -/
def addExport (ranks : List RankVec) (g : Nat) : ℚ :=
  (ranks.map (fun rv => pairSum g rv.entries)).sum

/-- The Tpetra/Eigen right-hand-side path (lines 163-176): assemble and
lift into the local arrays, apply `set_bc` on each local array, then
ADD-export the ghost entries. -/
def tpetraRhs (ranks : List RankVec) (isB : Nat → Bool) (g : Nat) : ℚ :=
  addExport (ranks.map (set_bc isB u0val)) g

/-- The PETSc right-hand-side path (lines 217-226): assemble and lift into
the local arrays, reverse ghost ADD, then `set_bc_petsc` on the owned
entries. -/
def petscRhs (ranks : List RankVec) (isB : Nat → Bool) (g : Nat) : ℚ :=
  if isB g then u0val else addExport ranks g

/-- Squared 2-norm of the first `n` global entries of a vector. -/
def norm2Sq (n : Nat) (f : Nat → ℚ) : ℚ :=
  ((List.range n).map (fun g => f g * f g)).sum

/-- Setting the (zero) boundary value on a local array zeroes exactly the
positions of constrained dofs, as seen by any later per-dof sum. -/
theorem pairSum_set_bc (isB : Nat → Bool) (g : Nat) (rv : RankVec) :
    pairSum g (set_bc isB u0val rv).entries
      = (if isB g then 0 else pairSum g rv.entries) := by
  obtain ⟨l⟩ := rv
  induction l with
  | nil => simp [set_bc, pairSum]
  | cons p rest ih =>
    obtain ⟨d, v⟩ := p
    simp only [set_bc, List.map_cons, pairSum] at ih ⊢
    by_cases hd : d = g
    · subst hd
      by_cases hb : isB d
      · simp [hb, u0val] at ih ⊢
        exact ih
      · simp [hb] at ih ⊢
        rw [ih]
    · simp only [hd, if_neg, if_false]
      by_cases hb : isB g
      · simp [hb] at ih ⊢
        exact ih
      · simp [hb] at ih ⊢
        rw [ih]

/-- The two right-hand-side paths agree pointwise on every global dof. -/
theorem rhs_paths_agree (ranks : List RankVec) (isB : Nat → Bool) (g : Nat) :
    tpetraRhs ranks isB g = petscRhs ranks isB g := by
  unfold tpetraRhs petscRhs addExport
  by_cases hb : isB g
  · rw [if_pos hb]
    have hz : ∀ x ∈ (ranks.map (set_bc isB u0val)).map
        (fun rv => pairSum g rv.entries), x = 0 := by
      intro x hx
      rw [List.map_map] at hx
      obtain ⟨rv, _, hrv⟩ := List.mem_map.mp hx
      rw [← hrv]
      simp only [Function.comp]
      rw [pairSum_set_bc, if_pos hb]
    rw [List.sum_eq_zero hz, u0val]
  · rw [if_neg hb]
    congr 1
    rw [List.map_map]
    refine List.map_congr_left (fun rv _ => ?_)
    simp only [Function.comp]
    rw [pairSum_set_bc, if_neg hb]

/-- The exact value of the C constant DBL_EPSILON for IEEE-754 binary64,
used at line 52. -/
def dblEpsilon : ℚ := 1 / 2 ^ 52

/-- The geometric boundary predicate of lines 51-53:
`x.row(0) < DBL_EPSILON or x.row(0) > 1.0 - DBL_EPSILON`, on a point given
by its two coordinates. -/
def boundaryMarker (x : ℚ × ℚ) : Bool :=
  decide (x.1 < dblEpsilon) || decide (x.1 > 1 - dblEpsilon)

/-- Model of `dolfinx::fem::locate_dofs_geometrical({*V}, marker)`: the dofs
of `V` whose coordinates satisfy the marker, given the dof coordinates of
the space. -/
def locate_dofs_geometrical (coords : List (ℚ × ℚ)) : List Nat :=
  (List.range coords.length).filter
    (fun i => boundaryMarker (coords.getD i (0, 0)))

/-- The dof array of `u0`: a freshly created `Function`'s array explicitly
zeroed at line 48. -/
def u0Array (ndofs : Nat) : List ℚ := List.replicate ndofs 0

/-- The Dirichlet boundary condition object: the constrained value function
and the constrained dof list. -/
structure DirichletBC where
  value : List ℚ
  dofs : List Nat

/-- The `bc` object of line 55, built from `u0` and `bdofs`. -/
def problemBC (ndofs : Nat) (coords : List (ℚ × ℚ)) : DirichletBC :=
  { value := u0Array ndofs, dofs := locate_dofs_geometrical coords }

/-- The interpolation callback for the coefficient `f` (lines 60-64),
parametric in the exponential map so that the rational model stays exact:
`dx = x0 - 0.5`, `dy = x1 - 0.5`, result `10 * (-exp(dx*dx + dy*dy) / 0.02)`. -/
def fInterp (expf : ℚ → ℚ) (x : ℚ × ℚ) : ℚ :=
  let dx := x.1 - 0.5
  let dy := x.2 - 0.5
  10 * (-(expf (dx * dx + dy * dy)) / 0.02)

/-- The interpolation callback for the coefficient `g` (lines 65-69):
`sin(5.0 * x0)`. -/
def gInterp (sinf : ℚ → ℚ) (x : ℚ × ℚ) : ℚ := sinf (5.0 * x.1)

/-- The closed-form expression for `f` as the claim states it:
`10 * (-(exp((x0-0.5)^2 + (x1-0.5)^2)) / 0.02)`. -/
def fSpecForm (expf : ℚ → ℚ) (x : ℚ × ℚ) : ℚ :=
  10 * (-(expf ((x.1 - 0.5) ^ 2 + (x.2 - 0.5) ^ 2)) / 0.02)

/-- The closed-form expression for `g` as the claim states it:
`sin(5 * x0)`. -/
def gSpecForm (sinf : ℚ → ℚ) (x : ℚ × ℚ) : ℚ := sinf (5 * x.1)

/-- The CRS graph row sizes of lines 85-87: for each locally owned row,
the number of diagonal-pattern links plus the number of
off-diagonal-pattern links.  Adjacency lists are modelled as a list of link
lists; diagonal links are local (to be shifted), off-diagonal links are
already global. -/
def nnzOf (diag : List (List Nat)) (offd : List (List Int)) : List Nat :=
  (List.range diag.length).map
    (fun i => (diag.getD i []).length + (offd.getD i []).length)

/-- The column index list the loop of lines 116-126 inserts for row `i`:
the diagonal links copied to 64-bit integers, each then shifted in place by
`r0`, with the off-diagonal links appended unchanged. -/
def insertedIndices (diag : List (List Nat)) (offd : List (List Int))
    (r0 : Int) (i : Nat) : List Int :=
  let indices := (diag.getD i []).map Int.ofNat
  let indices := indices.map (fun q => q + r0)
  indices ++ offd.getD i []

/-- The full sequence of `insertGlobalIndices` calls of the loop: row `i`
is addressed by `global_indices[i]` and receives `insertedIndices i`. -/
def crsInsertions (gidx : List Int) (diag : List (List Nat))
    (offd : List (List Int)) (r0 : Int) : List (Int × List Int) :=
  (List.range diag.length).map
    (fun i => (gidx.getD i 0, insertedIndices diag offd r0 i))

/-- The data of one invocation of `poisson::problem`, as the embedding sees
it: the CRS graph and local-to-global map of the space, the insertion-event
stream of the bilinear form, the boundary dofs, the per-rank local
right-hand-side data, the boundary flags of the global dofs, and the global
dof count. -/
structure ProblemModel where
  graph : Nat → List Nat
  l2g : List Nat
  events : List Block
  bdofs : List Nat
  ranks : List RankVec
  isB : Nat → Bool
  nGlobal : Nat

/-- The value `poisson::problem` returns (line 235): the assembled PETSc
matrix `A`, the assembled PETSc vector `b`, and the solution function `u`,
whose dof array is that of a freshly constructed `Function` (line 233). -/
structure ProblemReturn where
  A : Mat
  b : Nat → ℚ
  u : List ℚ

/-- The dof array of the freshly constructed solution `Function` of
line 233: zero-initialised storage, never written by any solve. -/
def freshSolutionArray (n : Nat) : List ℚ := List.replicate n 0

/-- The returned triple of `poisson::problem` (lines 232-235). -/
def problemReturn (m : ProblemModel) : ProblemReturn :=
  { A := petscSystemMatrix m.l2g m.events m.bdofs,
    b := petscRhs m.ranks m.isB,
    u := freshSolutionArray m.nGlobal }

/-- The Krylov method name passed to the Belos solver factory (line 195). -/
def gmresName : String := "GMRES"

/-- The function body with the MueLu preconditioner and Belos GMRES solver
construction steps of lines 178-195 in place: both are built (from the
Tpetra matrix and from empty default parameter lists), bound to local
handles, and never used again before the return. -/
def problemWithSetup {P S : Type} (createPrec : Except String Mat → P)
    (createSolver : String → S) (m : ProblemModel) : ProblemReturn :=
  let aT := tpetraSystemMatrix m.graph m.l2g m.events m.bdofs
  let _muelu := createPrec aT
  let _belos := createSolver gmresName
  problemReturn m

/-- Modelled from the spec: the PETSc variant of `poisson::problem`, whose
translation unit is not under `src/`; per the spec it returns the assembled
system plus a callback that solves it. -/
def problemPetscVariant {Sol : Type} (solve : Mat → (Nat → ℚ) → Sol)
    (m : ProblemModel) : ProblemReturn × (Unit → Sol) :=
  (problemReturn m,
   fun _ => solve (petscSystemMatrix m.l2g m.events m.bdofs)
              (petscRhs m.ranks m.isB))

/-- A concrete two-dof instance used to instantiate proved statements:
a dense 2-by-2 graph, the identity local-to-global map, one assembled
block, boundary dof 1, one rank, and dof 1 flagged as boundary. -/
def sampleModel : ProblemModel :=
  { graph := fun _ => [0, 1],
    l2g := [0, 1],
    events := [⟨[0, 1], [0, 1], [[1, 2], [3, 4]]⟩],
    bdofs := [1],
    ranks := [⟨[(0, 5), (1, 7)]⟩],
    isB := fun g => g == 1,
    nGlobal := 2 }

/-- A second concrete instance with the same global size but different
assembled data. -/
def sampleModel2 : ProblemModel :=
  { graph := fun _ => [0, 1],
    l2g := [0, 1],
    events := [],
    bdofs := [0],
    ranks := [],
    isB := fun _ => false,
    nGlobal := 2 }

/-- C1: for every input, the system matrix assembled through the Tpetra
insertion callback (`assemble_matrix` plus `add_diagonal` into `A_Tpetra`)
and the system matrix assembled through the PETSc backend (the same block
stream through `PETScMatrix::add_fn`) represent the same matrix — whenever
the Tpetra path completes, its matrix is exactly the PETSc one, so in
particular the Frobenius norms agree. -/
theorem c1_backends_same_matrix (graph : Nat → List Nat) (l2g : List Nat)
    (events : List Block) (bdofs : List Nat) (n : Nat)
    (hok : (tpetraSystemMatrix graph l2g events bdofs).isOk = true) :
    tpetraSystemMatrix graph l2g events bdofs
        = Except.ok (petscSystemMatrix l2g events bdofs)
      ∧ ∀ M, tpetraSystemMatrix graph l2g events bdofs = Except.ok M →
          Real.sqrt ((frobeniusNormSq n M : ℚ) : ℝ)
            = Real.sqrt ((frobeniusNormSq n
                (petscSystemMatrix l2g events bdofs) : ℚ) : ℝ) := by
  cases hM : tpetraSystemMatrix graph l2g events bdofs with
  | error e => rw [hM] at hok; simp [Except.isOk, Except.toBool] at hok
  | ok M =>
    have hMp : M = petscSystemMatrix l2g events bdofs :=
      tpetraAssemble_ok graph l2g (systemEvents events bdofs) zeroMat M hM
    constructor
    · rw [hMp]
    · intro M2 hM2
      cases hM2
      rw [hMp]

/-- C1 witness: on a concrete two-dof instance with a dense graph the
Tpetra path completes and returns the PETSc matrix. -/
theorem c1_backends_same_matrix_witness :
    tpetraSystemMatrix sampleModel.graph sampleModel.l2g sampleModel.events
        sampleModel.bdofs
      = Except.ok (petscSystemMatrix sampleModel.l2g sampleModel.events
        sampleModel.bdofs) :=
  (c1_backends_same_matrix sampleModel.graph sampleModel.l2g
    sampleModel.events sampleModel.bdofs 2 (by decide)).1

/-- C2: the right-hand side assembled through the Tpetra/Eigen path
(`assemble_vector`, `apply_lifting`, `set_bc` on the local array, then an
ADD-mode export of ghost entries) equals the one assembled through the
PETSc path (same assembly, reverse ghost ADD, then `set_bc_petsc`), for
every distribution of local contributions and every boundary flagging;
in particular the 2-norms agree, even though `set_bc` precedes the ghost
accumulation in one path and follows it in the other. -/
theorem c2_rhs_backends_agree (ranks : List RankVec) (isB : Nat → Bool)
    (n : Nat) :
    (∀ g, tpetraRhs ranks isB g = petscRhs ranks isB g)
      ∧ norm2Sq n (tpetraRhs ranks isB) = norm2Sq n (petscRhs ranks isB)
      ∧ Real.sqrt ((norm2Sq n (tpetraRhs ranks isB) : ℚ) : ℝ)
          = Real.sqrt ((norm2Sq n (petscRhs ranks isB) : ℚ) : ℝ) := by
  have hpt : ∀ g, tpetraRhs ranks isB g = petscRhs ranks isB g :=
    fun g => rhs_paths_agree ranks isB g
  have hfun : tpetraRhs ranks isB = petscRhs ranks isB := funext hpt
  exact ⟨hpt, by rw [hfun], by rw [hfun]⟩

/-- C2 witness: the pointwise agreement instantiated on a concrete
two-rank distribution with a shared boundary dof. -/
theorem c2_rhs_backends_agree_witness :
    tpetraRhs [⟨[(0, 5), (1, 7)]⟩, ⟨[(1, 11), (2, 13)]⟩] (fun g => g == 1) 1
      = petscRhs [⟨[(0, 5), (1, 7)]⟩, ⟨[(1, 11), (2, 13)]⟩]
          (fun g => g == 1) 1 :=
  (c2_rhs_backends_agree [⟨[(0, 5), (1, 7)]⟩, ⟨[(1, 11), (2, 13)]⟩]
    (fun g => g == 1) 3).1 1

/-- C3: the `tpetra_insert` callback raises a generic runtime failure whose
message carries the offending global row index exactly when some row of the
inserted block has `sumIntoGlobalValues` report fewer valid entries than
requested; when no such row exists it raises nothing and returns 0; and any
failure the Tpetra assembly of this translation unit raises carries this
one message shape. -/
theorem c3_insert_failure_mode (graph : Nat → List Nat) (l2g : List Nat)
    (A : Mat) (b : Block) (events : List Block) (bdofs : List Nat) :
    ((∃ msg, tpetra_insert graph l2g A b = Except.error msg)
        ↔ ∃ p ∈ blockRowPairs l2g b, rowFails graph (blockGcols l2g b) p)
      ∧ (∀ msg, tpetra_insert graph l2g A b = Except.error msg →
          ∃ p ∈ blockRowPairs l2g b, rowFails graph (blockGcols l2g b) p
            ∧ msg = "Could not insert on row " ++ toString p.1)
      ∧ ((∀ p ∈ blockRowPairs l2g b, ¬ rowFails graph (blockGcols l2g b) p) →
          tpetraCallbackResult graph l2g A b = Except.ok 0)
      ∧ (∀ msg, tpetraSystemMatrix graph l2g events bdofs
            = Except.error msg →
          ∃ gr : Nat, msg = "Could not insert on row " ++ toString gr) := by
  refine ⟨⟨?_, ?_⟩, ?_, ?_, ?_⟩
  · rintro ⟨msg, hmsg⟩
    obtain ⟨p, hp, hfail, _⟩ :=
      tpetraInsertRows_error graph (blockGcols l2g b) A
        (blockRowPairs l2g b) msg hmsg
    exact ⟨p, hp, hfail⟩
  · intro hfail
    exact tpetraInsertRows_error_of_fail graph (blockGcols l2g b) A
      (blockRowPairs l2g b) hfail
  · intro msg hmsg
    exact tpetraInsertRows_error graph (blockGcols l2g b) A
      (blockRowPairs l2g b) msg hmsg
  · intro hnone
    obtain ⟨A2, hA2⟩ :=
      tpetraInsertRows_ok_of_no_fail graph (blockGcols l2g b) A
        (blockRowPairs l2g b) hnone
    unfold tpetraCallbackResult
    rw [tpetra_insert, hA2]
  · intro msg hmsg
    exact tpetraAssemble_error_shape graph l2g (systemEvents events bdofs)
      zeroMat msg hmsg

/-- C3 witness: on a block whose columns are absent from the graph the
callback raises the failure carrying global row 7, and on the sample
instance (all columns present) it returns 0. -/
theorem c3_insert_failure_mode_witness :
    (∃ msg, tpetra_insert (fun _ => []) [7] zeroMat
        (⟨[0], [0], [[5]]⟩ : Block) = Except.error msg)
      ∧ tpetraCallbackResult sampleModel.graph sampleModel.l2g zeroMat
          ⟨[0, 1], [0, 1], [[1, 2], [3, 4]]⟩ = Except.ok 0 :=
  ⟨(c3_insert_failure_mode (fun _ => []) [7] zeroMat ⟨[0], [0], [[5]]⟩
      [] []).1.2 (by decide),
   (c3_insert_failure_mode sampleModel.graph sampleModel.l2g zeroMat
      ⟨[0, 1], [0, 1], [[1, 2], [3, 4]]⟩ [] []).2.2.1 (by decide)⟩

/-- C4: `poisson::problem` returns exactly the assembled matrix, the
assembled vector, and a solution placeholder whose dof array is the fresh
zero array — independent of everything assembled, since no solve is
performed inside the function; the PETSc variant (modelled from the spec)
returns the same triple plus a callback that solves the assembled system. -/
theorem c4_returns_assembled_triple (m : ProblemModel) :
    problemReturn m = ⟨petscSystemMatrix m.l2g m.events m.bdofs,
        petscRhs m.ranks m.isB, freshSolutionArray m.nGlobal⟩
      ∧ (∀ v ∈ (problemReturn m).u, v = 0)
      ∧ (∀ m2 : ProblemModel, m.nGlobal = m2.nGlobal →
          (problemReturn m).u = (problemReturn m2).u)
      ∧ ∀ (Sol : Type) (solve : Mat → (Nat → ℚ) → Sol),
          (problemPetscVariant solve m).1 = problemReturn m
            ∧ (problemPetscVariant solve m).2 ()
                = solve (problemReturn m).A (problemReturn m).b := by
  refine ⟨rfl, ?_, ?_, fun Sol solve => ⟨rfl, rfl⟩⟩
  · intro v hv
    simp only [problemReturn, freshSolutionArray] at hv
    exact (List.eq_of_mem_replicate hv)
  · intro m2 h
    simp only [problemReturn, freshSolutionArray, h]

/-- C4 witness: two instances with the same global dof count but different
assembled systems return the same solution placeholder. -/
theorem c4_returns_assembled_triple_witness :
    (problemReturn sampleModel).u = (problemReturn sampleModel2).u :=
  (c4_returns_assembled_triple sampleModel).2.2.1 sampleModel2 rfl

/-- C5: after assembly, every matrix row of a boundary dof is zero except
for its diagonal entry, which is one: the blocks of
`assemble_matrix(·, a, {bc})` contribute nothing to boundary rows, and
`add_diagonal` puts the 1 on the diagonal — in both backends. -/
theorem c5_boundary_rows_identity (graph : Nat → List Nat) (l2g : List Nat)
    (events : List Block) (bdofs : List Nat) (g j : Nat)
    (hnd : (bdofs.map (globalOf l2g)).Nodup)
    (hg : g ∈ bdofs.map (globalOf l2g))
    (hz : ∀ b ∈ events, rowZeroed l2g g b) :
    petscSystemMatrix l2g events bdofs g j = (if j = g then 1 else 0)
      ∧ ∀ M, tpetraSystemMatrix graph l2g events bdofs = Except.ok M →
          M g j = (if j = g then 1 else 0) := by
  have h1 : petscSystemMatrix l2g events bdofs g j
      = (if j = g then 1 else 0) := by
    unfold petscSystemMatrix systemEvents
    rw [petscAssemble_append,
      diagonalBlocks_mem_nodup l2g _ bdofs g j hnd hg,
      petscAssemble_row_preserved l2g zeroMat events g j hz]
    simp [zeroMat]
  refine ⟨h1, fun M hM => ?_⟩
  rw [tpetraAssemble_ok graph l2g (systemEvents events bdofs) zeroMat M hM]
  exact h1

/-- C5 witness: a concrete assembled block whose boundary row is zeroed
yields the pure identity row for boundary dof 1. -/
theorem c5_boundary_rows_identity_witness :
    petscSystemMatrix [0, 1] [⟨[0, 1], [0, 1], [[1, 2], [0, 0]]⟩] [1] 1 0
      = (if (0 : Nat) = 1 then 1 else 0) :=
  (c5_boundary_rows_identity (fun _ => [0, 1]) [0, 1]
    [⟨[0, 1], [0, 1], [[1, 2], [0, 0]]⟩] [1] 1 0
    (by decide) (by decide) (by decide)).1

/-- C6: the geometric predicate holds for a point exactly when its first
coordinate is below DBL_EPSILON or above 1 - DBL_EPSILON; the located
boundary dofs are exactly the dofs at such points; and `bc` is built from
those dofs and the zeroed function `u0`. -/
theorem c6_boundary_predicate (coords : List (ℚ × ℚ)) (ndofs i : Nat) :
    (i ∈ (problemBC ndofs coords).dofs
        ↔ i < coords.length
          ∧ ((coords.getD i (0, 0)).1 < 1 / 2 ^ 52
            ∨ (coords.getD i (0, 0)).1 > 1 - 1 / 2 ^ 52))
      ∧ (problemBC ndofs coords).dofs = locate_dofs_geometrical coords
      ∧ (problemBC ndofs coords).value = u0Array ndofs := by
  refine ⟨?_, rfl, rfl⟩
  unfold problemBC locate_dofs_geometrical boundaryMarker dblEpsilon
  simp [List.mem_filter, List.mem_range]

/-- C6 witness: the dof at coordinate (0, 0) is located as a boundary dof,
via the predicate's left inequality. -/
theorem c6_boundary_predicate_witness :
    0 ∈ (problemBC 2 [(0, 0), (1 / 2, 1 / 2)]).dofs :=
  (c6_boundary_predicate [(0, 0), (1 / 2, 1 / 2)] 2 0).1.mpr
    ⟨by norm_num, Or.inl (by norm_num)⟩

/-- C7: the interpolation callbacks compute exactly the closed-form
pointwise expressions `10 * (-(exp((x0-0.5)^2 + (x1-0.5)^2)) / 0.02)` and
`sin(5 * x0)` of the coordinates, for any exponential and sine maps. -/
theorem c7_coefficient_expressions (expf sinf : ℚ → ℚ) (x : ℚ × ℚ) :
    fInterp expf x = fSpecForm expf x ∧ gInterp sinf x = gSpecForm sinf x := by
  constructor
  · unfold fInterp fSpecForm
    have h : (x.1 - 0.5) * (x.1 - 0.5) + (x.2 - 0.5) * (x.2 - 0.5)
        = (x.1 - 0.5) ^ 2 + (x.2 - 0.5) ^ 2 := by ring
    simp only [h]
  · unfold gInterp gSpecForm
    norm_num

/-- C7 witness: the identity of the two expression forms at the concrete
point (0, 0) with the identity maps in place of exp and sin. -/
theorem c7_coefficient_expressions_witness :
    fInterp id (0, 0) = fSpecForm id (0, 0)
      ∧ gInterp id (0, 0) = gSpecForm id (0, 0) :=
  c7_coefficient_expressions id id (0, 0)

/-- C8: the boundary-value function `u0` is identically zero, so the
Dirichlet condition is homogeneous: after `set_bc` / `set_bc_petsc`, every
boundary dof of the assembled right-hand side holds zero in both paths. -/
theorem c8_homogeneous_bc (ndofs : Nat) (ranks : List RankVec)
    (isB : Nat → Bool) (g : Nat) (hg : isB g = true) :
    (∀ v ∈ u0Array ndofs, v = 0) ∧ u0val = 0
      ∧ tpetraRhs ranks isB g = 0 ∧ petscRhs ranks isB g = 0 := by
  have hp : petscRhs ranks isB g = 0 := by
    unfold petscRhs
    rw [if_pos hg]
    rfl
  refine ⟨?_, rfl, ?_, hp⟩
  · intro v hv
    exact List.eq_of_mem_replicate hv
  · rw [rhs_paths_agree]
    exact hp

/-- C8 witness: boundary dof 1 of the sample instance holds zero in both
right-hand-side paths. -/
theorem c8_homogeneous_bc_witness :
    tpetraRhs sampleModel.ranks sampleModel.isB 1 = 0
      ∧ petscRhs sampleModel.ranks sampleModel.isB 1 = 0 :=
  (c8_homogeneous_bc 2 sampleModel.ranks sampleModel.isB 1 (by decide)).2.2

/-- C9: for every locally owned row, the CRS graph is declared with exactly
(diagonal links + off-diagonal links) entries, and the inserted global
column indices are exactly the diagonal links shifted by `r0` followed by
the off-diagonal links unchanged, the row being addressed by
`global_indices[i]`. -/
theorem c9_crs_graph_rows (diag : List (List Nat)) (offd : List (List Int))
    (gidx : List Int) (r0 : Int) (i : Nat) (hi : i < diag.length) :
    (nnzOf diag offd).getD i 0
        = (diag.getD i []).length + (offd.getD i []).length
      ∧ insertedIndices diag offd r0 i
          = (diag.getD i []).map (fun q => Int.ofNat q + r0) ++ offd.getD i []
      ∧ (crsInsertions gidx diag offd r0).getD i (0, [])
          = (gidx.getD i 0,
             (diag.getD i []).map (fun q => Int.ofNat q + r0)
               ++ offd.getD i []) := by
  have hmap : insertedIndices diag offd r0 i
      = (diag.getD i []).map (fun q => Int.ofNat q + r0) ++ offd.getD i [] := by
    show List.map (fun q => q + r0) (List.map Int.ofNat (diag.getD i []))
        ++ offd.getD i [] = _
    rw [List.map_map]
    rfl
  refine ⟨?_, hmap, ?_⟩
  · unfold nnzOf
    rw [List.getD_eq_getElem?_getD, List.getElem?_map, List.getElem?_range hi]
    rfl
  · unfold crsInsertions
    rw [List.getD_eq_getElem?_getD, List.getElem?_map, List.getElem?_range hi]
    show (gidx.getD i 0, insertedIndices diag offd r0 i) = _
    rw [hmap]

/-- C9 witness: the first row of a concrete two-row pattern is inserted as
its shifted diagonal links followed by its off-diagonal links. -/
theorem c9_crs_graph_rows_witness :
    insertedIndices [[0, 1], [1]] [[5], []] 3 0
      = ([0, 1].map (fun q => Int.ofNat q + 3)) ++ [5] :=
  (c9_crs_graph_rows [[0, 1], [1]] [[5], []] [10, 11] 3 0 (by decide)).2.1

/-- C10: constructing the MueLu preconditioner and the Belos GMRES solver
(from empty default parameter lists) has no effect on the values
`poisson::problem` returns: for arbitrary constructor functions, the
returned matrix, vector and solution function are those of the body without
the two construction steps. -/
theorem c10_solver_setup_no_effect (P S : Type)
    (createPrec : Except String Mat → P) (createSolver : String → S)
    (m : ProblemModel) :
    problemWithSetup createPrec createSolver m = problemReturn m := rfl

/-- C10 witness: the identity on the sample instance with concrete
constructor functions. -/
theorem c10_solver_setup_no_effect_witness :
    problemWithSetup (fun _ => (0 : Nat)) (fun s => s) sampleModel
      = problemReturn sampleModel :=
  c10_solver_setup_no_effect Nat String (fun _ => 0) (fun s => s) sampleModel

end PoissonMiniapp
